import Mathlib

/-!
Verification of the versioned-document persistence layer
(`decapod_common/models/generic.py` and `decapod_common/timeutils.py`).

The Python code is shallowly embedded:

* A MongoDB document of `MODEL_DB_STRUCTURE` shape becomes the record
  `Doc`.  ObjectIds and uuid4 values are abstracted as the values of
  monotone generator counters carried by `World` (`nextOid`,
  `nextUuid`); `World.collection` is the collection's list of
  documents in insertion order.
* The in-memory model instance (`Model.__init__` fields) becomes the
  record `Model`.
* `timeutils.current_unix_timestamp()` (`int(time.time())`) is
  modeled as an explicit `now : Nat` argument threaded to the
  operations that call it.
* Exceptions become `Except PyExc`; because a raised exception does
  not roll back prior store writes, stateful operations return
  `Except PyExc α × World` with the world threaded on both paths.
* The entity-specific abstract methods
  (`make_db_document_specific_fields`, `make_api_specific_fields`)
  are abstracted as an opaque `Nat` payload stored in `Doc.data`.
-/

/-- Version-record identifier (MongoDB ObjectId), abstracted as the
value of the `World.nextOid` generator. -/
abbrev OId := Nat

/-- Logical model identifier (uuid4 string), abstracted as the value
of the `World.nextUuid` generator. -/
abbrev MId := Nat

/-- A stored document, the fields of `MODEL_DB_STRUCTURE` plus the
entity-specific payload contributed by
`make_db_document_specific_fields` (abstracted as `data`). -/
structure Doc where
  _id : OId
  model_id : Option MId
  version : Nat
  time_created : Nat
  time_deleted : Nat
  initiator_id : Option Nat
  is_latest : Bool
  data : Nat
deriving DecidableEq, Repr

/-- The in-memory model instance: the fields set by `Model.__init__`. -/
structure Model where
  initiator_id : Option Nat
  model_id : Option MId
  time_created : Nat
  time_deleted : Nat
  version : Nat
  _id : Option OId
deriving DecidableEq, Repr

/-- A freshly constructed instance (`Model.__init__`). -/
def Model.init : Model :=
  { initiator_id := none, model_id := none, time_created := 0,
    time_deleted := 0, version := 0, _id := none }

/-- The store state: the collection contents plus the ObjectId and
uuid4 generators. -/
structure World where
  collection : List Doc
  nextOid : Nat
  nextUuid : Nat
deriving DecidableEq, Repr

/-- The domain errors of `decapod_common.exceptions` used by this
module, plus bson's InvalidId raised by `bson.objectid.ObjectId`. -/
inductive PyExc where
  | cannotUpdateDeletedModel
  | uniqueConstraintViolation
  | invalidId
deriving DecidableEq, Repr

/-- Generator freshness: every document in the collection only uses
ObjectIds and uuids that the generators have already produced. -/
def WF (w : World) : Prop :=
  ∀ d ∈ w.collection,
    d._id < w.nextOid ∧ ∀ u, d.model_id = some u → u < w.nextUuid

/-- `Model.check_constraints`: raises `CannotUpdateDeletedModel` when
`self.time_deleted` is truthy (nonzero). -/
def Model.check_constraints (m : Model) : Except PyExc Unit :=
  if m.time_deleted ≠ 0 then .error .cannotUpdateDeletedModel else .ok ()

/-- `Model.make_db_document_structure`: deep-copies
`MODEL_DB_STRUCTURE` (model_id None, version 0, times 0,
initiator None, is_latest True), sets `_id` to a fresh ObjectId and
merges in the entity-specific fields (the `specific` payload). -/
def Model.make_db_document_structure (_m : Model) (specific : Nat) (w : World) :
    Doc × World :=
  (⟨w.nextOid, none, 0, 0, 0, none, true, specific⟩,
   { w with nextOid := w.nextOid + 1 })

/-- `Model.update_from_db_document`: refreshes the in-memory fields
from a stored document. -/
def Model.update_from_db_document (m : Model) (d : Doc) : Model :=
  { m with
    initiator_id := d.initiator_id
    time_created := d.time_created
    time_deleted := d.time_deleted
    version := d.version
    model_id := d.model_id
    _id := some d._id }

/-- The per-document effect of the `update_many` call at the end of
`Model.save`: filter `model_id = mid AND _id != oid AND is_latest`,
update `set is_latest = false`. -/
def demoteOne (mid : Option MId) (oid : OId) (e : Doc) : Doc :=
  if e.model_id = mid ∧ e._id ≠ oid ∧ e.is_latest = true then
    { e with is_latest := false }
  else e

/-- The store-side duplicate check behind `insert`: the mandatory
unique `_id` index and the `index_unique_version` unique compound
index on `(model_id, version)` declared by `ensure_index`. -/
def hasDup (coll : List Doc) (s : Doc) : Bool :=
  coll.any fun e =>
    decide (e._id = s._id) ||
      (decide (e.model_id = s.model_id) && decide (e.version = s.version))

/-- The `if not structure: structure = self.make_db_document_structure()`
step at the top of `Model.save`. -/
def buildStructure (m : Model) (structure? : Option Doc) (specific : Nat)
    (w : World) : Doc × World :=
  match structure? with
  | none => m.make_db_document_structure specific w
  | some s => (s, w)

/-- The model_id assignment of `Model.save`:
`if structure["model_id"] is None: structure["model_id"] = self.model_id or str(uuid.uuid4())`. -/
def assignModelId (m : Model) (s : Doc) (w : World) : Doc × World :=
  if s.model_id = none then
    match m.model_id with
    | some mid => ({ s with model_id := some mid }, w)
    | none => ({ s with model_id := some w.nextUuid },
               { w with nextUuid := w.nextUuid + 1 })
  else (s, w)

/-- `Model.save`: constraint check; build the structure if none was
supplied; set `version = self.version + 1`; assign `model_id` if
absent; force `is_latest = True`; stamp `time_created = now`;
`insert_document` (raising `UniqueConstraintViolationError` on a
duplicate key); `update_from_db_document`; demote every other
`is_latest` row of this model_id via `update_many`.  Returns the
inserted `_id`. -/
def Model.save (m : Model) (structure? : Option Doc) (specific : Nat)
    (now : Nat) (w : World) : Except PyExc (Model × OId) × World :=
  match m.check_constraints with
  | .error e => (.error e, w)
  | .ok _ =>
    let bw := buildStructure m structure? specific w
    let s1 := { bw.1 with version := m.version + 1 }
    let aw := assignModelId m s1 bw.2
    let s3 := { aw.1 with is_latest := true, time_created := now }
    if hasDup aw.2.collection s3 then
      (.error .uniqueConstraintViolation, aw.2)
    else
      let m2 := m.update_from_db_document s3
      (.ok (m2, s3._id),
       { aw.2 with
         collection :=
           (aw.2.collection ++ [s3]).map (demoteOne s3.model_id s3._id) })

/-- `Model.delete`: builds a fresh db structure, stamps
`time_deleted = now`, and saves it. -/
def Model.delete (m : Model) (specific : Nat) (now : Nat) (w : World) :
    Except PyExc (Model × OId) × World :=
  let sw := m.make_db_document_structure specific w
  m.save (some { sw.1 with time_deleted := now }) specific now sw.2

/-- N sequential `save()` calls (no supplied structure); each step
takes its own entity payload and timestamp `(specific, now)`.
Returns `none` as soon as a save raises. -/
def saveSeq : Model → World → List (Nat × Nat) → Option (Model × World)
  | m, w, [] => some (m, w)
  | m, w, (specific, now) :: rest =>
    match m.save none specific now w with
    | (.ok (m2, _), w2) => saveSeq m2 w2 rest
    | (.error _, _) => none

/-- C5: once an instance is deleted (`time_deleted` nonzero), `save()`
raises `CannotUpdateDeletedModel` before touching the store, and
`delete()` does the same (its structure build draws an ObjectId but
writes nothing): the stored collection is unchanged by either failed
attempt. -/
theorem deleted_model_rejects_save_and_delete (m : Model) (w : World)
    (structure? : Option Doc) (specific now : Nat)
    (h : m.time_deleted ≠ 0) :
    m.save structure? specific now w = (.error .cannotUpdateDeletedModel, w) ∧
    (m.delete specific now w).1 = .error .cannotUpdateDeletedModel ∧
    ((m.delete specific now w).2).collection = w.collection := by
  have hc : m.check_constraints = .error .cannotUpdateDeletedModel := by
    simp [Model.check_constraints, h]
  refine ⟨?_, ?_, ?_⟩ <;>
    simp [Model.save, Model.delete, Model.make_db_document_structure, hc]

/-- Witness for C5 at a concrete deleted instance. -/
theorem deleted_model_rejects_save_and_delete_wit :
    (Model.mk none (some 4) 3 9 2 (some 1)).save none 0 11
        (World.mk [] 5 5) = (.error .cannotUpdateDeletedModel, World.mk [] 5 5) ∧
    ((Model.mk none (some 4) 3 9 2 (some 1)).delete 0 11 (World.mk [] 5 5)).1 =
        .error .cannotUpdateDeletedModel ∧
    (((Model.mk none (some 4) 3 9 2 (some 1)).delete 0 11 (World.mk [] 5 5)).2).collection = [] :=
  deleted_model_rejects_save_and_delete
    (Model.mk none (some 4) 3 9 2 (some 1)) (World.mk [] 5 5) none 0 11
    (by decide)

/-- The model_id carried by the supplied structure (`None` when no
structure is supplied, since `make_db_document_structure` copies
`MODEL_DB_STRUCTURE` whose model_id is `None`). -/
def structModelId : Option Doc → Option MId
  | none => none
  | some s => s.model_id

/-- The model_id that `Model.save` ends up storing, as a function of
the structure's and the instance's model_id. -/
def pickModelId (m : Model) (s : Doc) (w : World) : Option MId :=
  match s.model_id with
  | some x => some x
  | none =>
    match m.model_id with
    | some y => some y
    | none => some w.nextUuid

theorem assignModelId_fst (m : Model) (s : Doc) (w : World) :
    (assignModelId m s w).1 = { s with model_id := pickModelId m s w } := by
  cases hs : s.model_id with
  | none => cases hm : m.model_id <;> simp [assignModelId, pickModelId, hs, hm]
  | some x =>
    have he : ({ s with model_id := some x } : Doc) = s := by rw [← hs]
    simp [assignModelId, pickModelId, hs, he]

theorem assignModelId_version (m : Model) (s : Doc) (w : World) :
    (assignModelId m s w).1.version = s.version := by
  rw [assignModelId_fst]

theorem assignModelId_oid (m : Model) (s : Doc) (w : World) :
    (assignModelId m s w).1._id = s._id := by
  rw [assignModelId_fst]

theorem assignModelId_snd (m : Model) (s : Doc) (w : World) :
    (assignModelId m s w).2 =
      { w with nextUuid :=
          if s.model_id = none ∧ m.model_id = none then w.nextUuid + 1
          else w.nextUuid } := by
  cases hs : s.model_id <;> cases hm : m.model_id <;>
    simp [assignModelId, hs, hm]

theorem buildStructure_snd (m : Model) (structure? : Option Doc)
    (specific : Nat) (w : World) :
    (buildStructure m structure? specific w).2 =
      { w with nextOid :=
          match structure? with
          | none => w.nextOid + 1
          | some _ => w.nextOid } := by
  cases structure? <;> simp [buildStructure, Model.make_db_document_structure]

theorem buildStructure_fst_model_id (m : Model) (structure? : Option Doc)
    (specific : Nat) (w : World) :
    (buildStructure m structure? specific w).1.model_id =
      structModelId structure? := by
  cases structure? <;>
    simp [buildStructure, Model.make_db_document_structure, structModelId]

/-- Characterization of a successful `Model.save`: the inserted
document `s3` has the incremented version, `is_latest` forced true,
`time_created = now`, the model_id selected by `pickModelId`; the
store gains `s3` at the end and every pre-existing document passes
through `demoteOne`; the instance is refreshed from `s3`; the uuid
generator advances exactly when neither the structure nor the
instance carried a model_id. -/
theorem save_ok_inv (m : Model) (structure? : Option Doc)
    (specific now : Nat) (w : World) (m' : Model) (oid : OId) (w' : World)
    (h : m.save structure? specific now w = (.ok (m', oid), w')) :
    ∃ s3 : Doc,
      oid = s3._id ∧
      m' = m.update_from_db_document s3 ∧
      s3.version = m.version + 1 ∧
      s3.is_latest = true ∧
      s3.time_created = now ∧
      s3.model_id =
        pickModelId m { (buildStructure m structure? specific w).1 with
                        version := m.version + 1 } w ∧
      hasDup w.collection s3 = false ∧
      w'.collection = w.collection.map (demoteOne s3.model_id oid) ++ [s3] ∧
      w'.nextUuid =
        (if structModelId structure? = none ∧ m.model_id = none
         then w.nextUuid + 1 else w.nextUuid) ∧
      m.time_deleted = 0 := by
  by_cases hdel : m.time_deleted = 0
  case neg =>
    have hc : m.check_constraints = .error .cannotUpdateDeletedModel := by
      simp [Model.check_constraints, hdel]
    simp [Model.save, hc] at h
  case pos =>
    have hc : m.check_constraints = .ok () := by
      simp [Model.check_constraints, hdel]
    simp only [Model.save, hc] at h
    set s1 : Doc :=
      { (buildStructure m structure? specific w).1 with
        version := m.version + 1 } with hs1
    set s3 : Doc :=
      { (assignModelId m s1 (buildStructure m structure? specific w).2).1 with
        is_latest := true, time_created := now } with hs3
    have hawc : (assignModelId m s1
        (buildStructure m structure? specific w).2).2.collection =
        w.collection := by
      rw [assignModelId_snd, buildStructure_snd]
    rw [hawc] at h
    by_cases hdup : hasDup w.collection s3 = true
    case pos => simp [hdup] at h
    case neg =>
      rw [Bool.not_eq_true] at hdup
      rw [if_neg (by simp [hdup])] at h
      simp only [Prod.mk.injEq, Except.ok.injEq] at h
      obtain ⟨⟨hm', hoid⟩, hw'⟩ := h
      subst hw'
      subst hm'
      subst hoid
      refine ⟨s3, rfl, rfl, ?_, rfl, rfl, ?_, hdup, ?_, ?_, hdel⟩
      · simp [hs3, hs1, assignModelId_version]
      · have hpick :
            pickModelId m s1 (buildStructure m structure? specific w).2 =
              pickModelId m s1 w := by
          cases h1 : s1.model_id <;> cases h2 : m.model_id <;>
            simp [pickModelId, h1, h2, buildStructure_snd]
        simp [hs3, assignModelId_fst, hpick]
      · show List.map
            (demoteOne (assignModelId m s1
              (buildStructure m structure? specific w).2).1.model_id
              (assignModelId m s1
                (buildStructure m structure? specific w).2).1._id)
            (w.collection ++ [s3]) = _
        rw [List.map_append]
        have hmid :
            (assignModelId m s1
              (buildStructure m structure? specific w).2).1.model_id =
              s3.model_id := rfl
        have hid :
            (assignModelId m s1
              (buildStructure m structure? specific w).2).1._id =
              s3._id := rfl
        rw [hmid, hid]
        simp [demoteOne]
      · show (assignModelId m s1
            (buildStructure m structure? specific w).2).2.nextUuid = _
        rw [assignModelId_snd]
        simp only [buildStructure_fst_model_id, buildStructure_snd]

theorem pickModelId_struct (m : Model) (s : Doc) (w : World) (x : MId)
    (h : s.model_id = some x) : pickModelId m s w = some x := by
  unfold pickModelId; rw [h]

theorem pickModelId_inst (m : Model) (s : Doc) (w : World) (y : MId)
    (h1 : s.model_id = none) (h2 : m.model_id = some y) :
    pickModelId m s w = some y := by
  unfold pickModelId; rw [h1, h2]

theorem pickModelId_fresh (m : Model) (s : Doc) (w : World)
    (h1 : s.model_id = none) (h2 : m.model_id = none) :
    pickModelId m s w = some w.nextUuid := by
  unfold pickModelId; rw [h1, h2]

theorem demoteOne_cases (mid : Option MId) (oid : OId) (e : Doc) :
    demoteOne mid oid e = e ∨
      demoteOne mid oid e = { e with is_latest := false } := by
  unfold demoteOne; split
  · exact Or.inr rfl
  · exact Or.inl rfl

theorem demoteOne_model_id (mid : Option MId) (oid : OId) (e : Doc) :
    (demoteOne mid oid e).model_id = e.model_id := by
  unfold demoteOne; split <;> rfl

theorem demoteOne_id (mid : Option MId) (oid : OId) (e : Doc) :
    (demoteOne mid oid e)._id = e._id := by
  unfold demoteOne; split <;> rfl

theorem demoteOne_other (mid : Option MId) (oid : OId) (e : Doc)
    (h : e.model_id ≠ mid) : demoteOne mid oid e = e := by
  unfold demoteOne
  rw [if_neg]
  intro hcon
  exact h hcon.1

/-- C2: a successful `save()` inserts (at the end of the collection) a
document whose version is the instance's version plus one, whose
`is_latest` is true and whose `time_created` is the current unix
timestamp; the model_id is taken from the supplied structure if it has
one, else from the instance if it has one, and only when both are
absent (the entity's first save) is a fresh uuid drawn — fresh in the
sense that the generator advances and no stored document already
carries it. -/
theorem save_inserted_doc_fields (m : Model) (structure? : Option Doc)
    (specific now : Nat) (w : World) (m' : Model) (oid : OId) (w' : World)
    (hwf : WF w)
    (h : m.save structure? specific now w = (.ok (m', oid), w')) :
    ∃ d : Doc,
      w'.collection.getLast? = some d ∧
      d._id = oid ∧
      d.version = m.version + 1 ∧
      d.is_latest = true ∧
      d.time_created = now ∧
      (∀ x, structModelId structure? = some x →
        d.model_id = some x ∧ w'.nextUuid = w.nextUuid) ∧
      (structModelId structure? = none → ∀ y, m.model_id = some y →
        d.model_id = some y ∧ w'.nextUuid = w.nextUuid) ∧
      (structModelId structure? = none → m.model_id = none →
        d.model_id = some w.nextUuid ∧ w'.nextUuid = w.nextUuid + 1 ∧
        ∀ e ∈ w.collection, e.model_id ≠ some w.nextUuid) := by
  obtain ⟨s3, hoid, hm', hver, hlatest, htime, hmid, hdup, hcoll, huuid, hdel⟩ :=
    save_ok_inv m structure? specific now w m' oid w' h
  have hsmid : ({ (buildStructure m structure? specific w).1 with
      version := m.version + 1 } : Doc).model_id = structModelId structure? :=
    buildStructure_fst_model_id m structure? specific w
  refine ⟨s3, ?_, hoid.symm, hver, hlatest, htime, ?_, ?_, ?_⟩
  · rw [hcoll]
    exact List.getLast?_concat _
  · intro x hx
    refine ⟨?_, ?_⟩
    · rw [hmid]
      exact pickModelId_struct m _ w x (hsmid.trans hx)
    · rw [huuid]
      simp [hx]
  · intro hnone y hy
    refine ⟨?_, ?_⟩
    · rw [hmid]
      exact pickModelId_inst m _ w y (hsmid.trans hnone) hy
    · rw [huuid]
      simp [hy]
  · intro hnone hmnone
    refine ⟨?_, ?_, ?_⟩
    · rw [hmid]
      exact pickModelId_fresh m _ w (hsmid.trans hnone) hmnone
    · rw [huuid]
      simp [hnone, hmnone]
    · intro e he hcon
      exact absurd ((hwf e he).2 w.nextUuid hcon) (lt_irrefl _)

/-- Witness for C2 at a concrete first save. -/
theorem save_inserted_doc_fields_wit :
    ∃ d : Doc,
      (World.mk [Doc.mk 0 (some 0) 1 7 0 none true 5] 1 1).collection.getLast?
          = some d ∧
      d._id = 0 ∧
      d.version = Model.init.version + 1 ∧
      d.is_latest = true ∧
      d.time_created = 7 ∧
      (∀ x, structModelId none = some x →
        d.model_id = some x ∧
          (World.mk [Doc.mk 0 (some 0) 1 7 0 none true 5] 1 1).nextUuid =
            (World.mk [] 0 0).nextUuid) ∧
      (structModelId none = none → ∀ y, Model.init.model_id = some y →
        d.model_id = some y ∧
          (World.mk [Doc.mk 0 (some 0) 1 7 0 none true 5] 1 1).nextUuid =
            (World.mk [] 0 0).nextUuid) ∧
      (structModelId none = none → Model.init.model_id = none →
        d.model_id = some (World.mk [] 0 0).nextUuid ∧
          (World.mk [Doc.mk 0 (some 0) 1 7 0 none true 5] 1 1).nextUuid =
            (World.mk [] 0 0).nextUuid + 1 ∧
          ∀ e ∈ (World.mk [] 0 0).collection,
            e.model_id ≠ some (World.mk [] 0 0).nextUuid) :=
  save_inserted_doc_fields Model.init none 5 7 (World.mk [] 0 0)
    (Model.mk none (some 0) 7 0 1 (some 0)) 0
    (World.mk [Doc.mk 0 (some 0) 1 7 0 none true 5] 1 1)
    (by simp [WF]) (by rfl)

/-- C9: the demotion step of a successful `save()` leaves the inserted
row `d` (`_id = oid`) with `is_latest = true` at the end of the
collection, flips `is_latest` to false on every other stored row of
the same model_id, changes no field other than `is_latest` on any
row, and leaves every row of a different model_id untouched. -/
theorem save_demotes_only_other_rows (m : Model) (structure? : Option Doc)
    (specific now : Nat) (w : World) (m' : Model) (oid : OId) (w' : World)
    (h : m.save structure? specific now w = (.ok (m', oid), w')) :
    ∃ (d : Doc) (M : MId),
      d._id = oid ∧
      d.model_id = some M ∧
      d.is_latest = true ∧
      w'.collection = w.collection.map (demoteOne (some M) oid) ++ [d] ∧
      (∀ e, demoteOne (some M) oid e = e ∨
        demoteOne (some M) oid e = { e with is_latest := false }) ∧
      (∀ e, e.model_id ≠ some M → demoteOne (some M) oid e = e) ∧
      (∀ e ∈ w'.collection, e.model_id = some M → e._id ≠ oid →
        e.is_latest = false) := by
  obtain ⟨s3, hoid, hm', hver, hlatest, htime, hmid, hdup, hcoll, huuid, hdel⟩ :=
    save_ok_inv m structure? specific now w m' oid w' h
  have hsome : ∃ M, s3.model_id = some M := by
    rw [hmid, pickModelId]
    cases ({ (buildStructure m structure? specific w).1 with
        version := m.version + 1 } : Doc).model_id with
    | some x => exact ⟨x, rfl⟩
    | none =>
      cases m.model_id with
      | some y => exact ⟨y, rfl⟩
      | none => exact ⟨w.nextUuid, rfl⟩
  obtain ⟨M, hM⟩ := hsome
  rw [hM] at hcoll
  refine ⟨s3, M, hoid.symm, hM, hlatest, hcoll, demoteOne_cases _ _,
    fun e he => demoteOne_other _ _ _ he, ?_⟩
  intro e he hemid heid
  rw [hcoll] at he
  rcases List.mem_append.1 he with hin | hin
  · obtain ⟨e0, he0, heq⟩ := List.mem_map.1 hin
    subst heq
    rw [demoteOne_model_id] at hemid
    rw [demoteOne_id] at heid
    by_cases hcond : e0.model_id = some M ∧ e0._id ≠ oid ∧ e0.is_latest = true
    · unfold demoteOne
      rw [if_pos hcond]
    · unfold demoteOne
      rw [if_neg hcond]
      cases hb : e0.is_latest with
      | false => rfl
      | true => exact absurd ⟨hemid, heid, hb⟩ hcond
  · have : e = s3 := by simpa using hin
    subst this
    exact absurd hoid.symm heid

/-- Witness for C9 at a concrete save. -/
theorem save_demotes_only_other_rows_wit :
    ∃ (d : Doc) (M : MId),
      d._id = 0 ∧
      d.model_id = some M ∧
      d.is_latest = true ∧
      (World.mk [Doc.mk 0 (some 0) 1 7 0 none true 5] 1 1).collection =
        (World.mk [] 0 0).collection.map (demoteOne (some M) 0) ++ [d] ∧
      (∀ e, demoteOne (some M) 0 e = e ∨
        demoteOne (some M) 0 e = { e with is_latest := false }) ∧
      (∀ e, e.model_id ≠ some M → demoteOne (some M) 0 e = e) ∧
      (∀ e ∈ (World.mk [Doc.mk 0 (some 0) 1 7 0 none true 5] 1 1).collection,
        e.model_id = some M → e._id ≠ 0 → e.is_latest = false) :=
  save_demotes_only_other_rows Model.init none 5 7 (World.mk [] 0 0)
    (Model.mk none (some 0) 7 0 1 (some 0)) 0
    (World.mk [Doc.mk 0 (some 0) 1 7 0 none true 5] 1 1)
    (by rfl)

theorem demoteOne_version (mid : Option MId) (oid : OId) (e : Doc) :
    (demoteOne mid oid e).version = e.version := by
  unfold demoteOne; split <;> rfl

theorem demoteOne_islatest_false (mid : Option MId) (oid : OId) (e : Doc)
    (h1 : e.model_id = mid) (h2 : e._id ≠ oid) :
    (demoteOne mid oid e).is_latest = false := by
  by_cases hb : e.is_latest = true
  · unfold demoteOne
    rw [if_pos ⟨h1, h2, hb⟩]
  · unfold demoteOne
    rw [if_neg fun hcon => hb hcon.2.2]
    simpa using hb

/-- Computation of `save()` with no supplied structure on an instance
that already carries a model_id. -/
theorem save_none_some (m : Model) (sp now : Nat) (w : World) (M : MId)
    (hdel : m.time_deleted = 0) (hmid : m.model_id = some M)
    (hdup : hasDup w.collection
      (Doc.mk w.nextOid (some M) (m.version + 1) now 0 none true sp) = false) :
    m.save none sp now w =
      (.ok (m.update_from_db_document
              (Doc.mk w.nextOid (some M) (m.version + 1) now 0 none true sp),
            w.nextOid),
       World.mk
         ((w.collection ++
            [Doc.mk w.nextOid (some M) (m.version + 1) now 0 none true sp]).map
              (demoteOne (some M) w.nextOid))
         (w.nextOid + 1) w.nextUuid) := by
  have hc : m.check_constraints = .ok () := by
    simp [Model.check_constraints, hdel]
  simp [Model.save, hc, buildStructure, Model.make_db_document_structure,
    assignModelId, hmid, hdup]

/-- Computation of the very first `save()` (no structure, no model_id
on the instance): a fresh uuid is drawn. -/
theorem save_none_none (m : Model) (sp now : Nat) (w : World)
    (hdel : m.time_deleted = 0) (hmid : m.model_id = none)
    (hdup : hasDup w.collection
      (Doc.mk w.nextOid (some w.nextUuid) (m.version + 1) now 0 none true sp)
        = false) :
    m.save none sp now w =
      (.ok (m.update_from_db_document
              (Doc.mk w.nextOid (some w.nextUuid) (m.version + 1) now 0 none
                true sp),
            w.nextOid),
       World.mk
         ((w.collection ++
            [Doc.mk w.nextOid (some w.nextUuid) (m.version + 1) now 0 none
              true sp]).map (demoteOne (some w.nextUuid) w.nextOid))
         (w.nextOid + 1) (w.nextUuid + 1)) := by
  have hc : m.check_constraints = .ok () := by
    simp [Model.check_constraints, hdel]
  simp [Model.save, hc, buildStructure, Model.make_db_document_structure,
    assignModelId, hmid, hdup]

/-- The rows a sequence of saves accumulates for model_id `M`:
`k` rows with versions `1..k`, `is_latest` exactly on version `k`. -/
def MRows (M : MId) (k : Nat) (rows : List Doc) : Prop :=
  rows.length = k ∧
  ∀ i (h : i < rows.length),
    rows[i].model_id = some M ∧
    rows[i].version = i + 1 ∧
    rows[i].is_latest = decide (i + 1 = k)

/-- Invariant after `k` sequential saves of one entity with model_id
`M` starting from collection `orig`. -/
def SaveInv (orig : List Doc) (M : MId) (k : Nat) (m : Model) (w : World) :
    Prop :=
  m.version = k ∧ m.model_id = some M ∧ m.time_deleted = 0 ∧
  WF w ∧ M < w.nextUuid ∧
  (∀ d ∈ orig, d.model_id ≠ some M) ∧
  ∃ rows, w.collection = orig ++ rows ∧ MRows M k rows

theorem save_step (orig : List Doc) (M : MId) (k : Nat) (m : Model)
    (w : World) (sp now : Nat) (hinv : SaveInv orig M k m w) :
    ∃ m2 w2, m.save none sp now w = (.ok (m2, w.nextOid), w2) ∧
      SaveInv orig M (k + 1) m2 w2 := by
  obtain ⟨hver, hmid, hdel, hwf, hMu, horig, rows, hcoll, hlen, hrows⟩ := hinv
  set s3 : Doc := Doc.mk w.nextOid (some M) (m.version + 1) now 0 none true sp
    with hs3
  have hidbound : ∀ e ∈ w.collection, e._id ≠ w.nextOid := fun e he =>
    Nat.ne_of_lt (hwf e he).1
  have hdup : hasDup w.collection s3 = false := by
    rw [hasDup, List.any_eq_false]
    intro e he
    simp only [Bool.or_eq_true, decide_eq_true_eq, Bool.and_eq_true, not_or,
      not_and]
    refine ⟨hidbound e he, ?_⟩
    intro hemid
    rw [hcoll] at he
    rcases List.mem_append.1 he with ho | hr
    · exact absurd (hemid.trans rfl) (horig e ho)
    · obtain ⟨⟨i, hi⟩, hget⟩ := List.mem_iff_get.1 hr
      have hv : e.version = i + 1 := by
        rw [← hget]; exact (hrows i hi).2.1
      have : i + 1 ≤ k := by omega
      show ¬ e.version = m.version + 1
      rw [hv, hver]
      omega
  have hs := save_none_some m sp now w M hdel hmid hdup
  refine ⟨_, _, hs, ?_, rfl, rfl, ?_, hMu, horig,
    rows.map (demoteOne (some M) w.nextOid) ++ [s3], ?_, ?_, ?_⟩
  · show m.version + 1 = k + 1
    omega
  · -- WF of the new world
    intro d hd
    obtain ⟨e, he, heq⟩ := List.mem_map.1 hd
    subst heq
    rw [demoteOne_id, demoteOne_model_id]
    rcases List.mem_append.1 he with hin | hin
    · have := hwf e hin
      refine ⟨?_, this.2⟩
      show e._id < w.nextOid + 1
      exact Nat.lt_succ_of_lt this.1
    · have : e = s3 := by simpa using hin
      subst this
      refine ⟨by simp [hs3], ?_⟩
      intro u hu
      rw [hs3] at hu
      simp at hu
      show u < w.nextUuid
      rw [← hu]
      exact hMu
  · -- the new collection splits as orig ++ new rows
    show (w.collection ++ [s3]).map (demoteOne (some M) w.nextOid) = _
    rw [hcoll, List.map_append, List.map_append, List.append_assoc]
    congr 1
    · calc List.map (demoteOne (some M) w.nextOid) orig
          = List.map id orig :=
            List.map_congr_left fun e he => demoteOne_other _ _ _ (horig e he)
        _ = orig := List.map_id orig
    · congr 1
      simp [demoteOne, hs3]
  · simp [hlen]
  · -- indexed facts about the new rows
    intro i hi
    simp only [List.length_append, List.length_map, List.length_cons,
      List.length_nil, hlen] at hi
    by_cases hik : i < k
    · have him : i < (rows.map (demoteOne (some M) w.nextOid)).length := by
        simp [hlen, hik]
    
      have hgl :
          (rows.map (demoteOne (some M) w.nextOid) ++ [s3])[i] =
            (rows.map (demoteOne (some M) w.nextOid))[i] :=
        List.getElem_append_left him
      have hir : i < rows.length := by omega
      have hgm : (rows.map (demoteOne (some M) w.nextOid))[i] =
          demoteOne (some M) w.nextOid rows[i] := List.getElem_map _
      have hrmem : rows[i] ∈ w.collection := by
        rw [hcoll]
        exact List.mem_append_right _ (List.getElem_mem hir)
      refine ⟨?_, ?_, ?_⟩
      · rw [hgl, hgm, demoteOne_model_id]
        exact (hrows i hir).1
      · rw [hgl, hgm, demoteOne_version]
        exact (hrows i hir).2.1
      · rw [hgl, hgm,
          demoteOne_islatest_false _ _ _ (hrows i hir).1
            (hidbound _ hrmem)]
        have : ¬ (i + 1 = k + 1) := by omega
        simp [this]
    · have hik' : i = k := by omega
      subst hik'
      have hil : (rows.map (demoteOne (some M) w.nextOid)).length ≤ i := by
        simp [hlen]
      have hgr :
          (rows.map (demoteOne (some M) w.nextOid) ++ [s3])[i] = s3 := by
        rw [List.getElem_append_right hil]
        simp [hlen]
      rw [hgr, hs3]
      refine ⟨rfl, by simp [hver], by simp⟩

/-- The very first save establishes the invariant with the freshly
drawn uuid as model_id. -/
theorem save_first (w : World) (sp now : Nat) (hwf : WF w) :
    ∃ m2 w2, Model.init.save none sp now w = (.ok (m2, w.nextOid), w2) ∧
      SaveInv w.collection w.nextUuid 1 m2 w2 := by
  set s3 : Doc :=
    Doc.mk w.nextOid (some w.nextUuid) (Model.init.version + 1) now 0 none
      true sp with hs3
  have hdup : hasDup w.collection s3 = false := by
    rw [hasDup, List.any_eq_false]
    intro e he
    simp only [Bool.or_eq_true, decide_eq_true_eq, Bool.and_eq_true, not_or,
      not_and]
    refine ⟨Nat.ne_of_lt (hwf e he).1, ?_⟩
    intro hemid
    exact fun _ => absurd ((hwf e he).2 w.nextUuid hemid) (lt_irrefl _)
  have hs := save_none_none Model.init sp now w rfl rfl hdup
  have hfresh : ∀ d ∈ w.collection, d.model_id ≠ some w.nextUuid := by
    intro d hd hcon
    exact absurd ((hwf d hd).2 w.nextUuid hcon) (lt_irrefl _)
  have hcoll2 :
      (w.collection ++ [s3]).map (demoteOne (some w.nextUuid) w.nextOid) =
        w.collection ++ [s3] := by
    rw [List.map_append]
    congr 1
    · calc List.map (demoteOne (some w.nextUuid) w.nextOid) w.collection
          = List.map id w.collection :=
            List.map_congr_left fun e he =>
              demoteOne_other _ _ _ (hfresh e he)
        _ = w.collection := List.map_id w.collection
    · simp [demoteOne, hs3]
  refine ⟨_, _, hs, rfl, rfl, rfl, ?_, Nat.lt_succ_self _, hfresh,
    [s3], ?_, rfl, ?_⟩
  · -- WF of the new world
    intro d hd
    show d._id < w.nextOid + 1 ∧ ∀ u, d.model_id = some u → u < w.nextUuid + 1
    rw [hcoll2] at hd
    rcases List.mem_append.1 hd with hin | hin
    · have := hwf d hin
      exact ⟨Nat.lt_succ_of_lt this.1,
        fun u hu => Nat.lt_succ_of_lt (this.2 u hu)⟩
    · have : d = s3 := by simpa using hin
      subst this
      refine ⟨by simp [hs3], ?_⟩
      intro u hu
      rw [hs3] at hu
      simp at hu
      rw [← hu]
      exact Nat.lt_succ_self _
  · -- new collection is orig ++ [s3]
    exact hcoll2
  · -- MRows for the single row
    intro i hi
    simp only [List.length_cons, List.length_nil] at hi
    have : i = 0 := by omega
    subst this
    refine ⟨rfl, rfl, rfl⟩

/-- Running the remaining saves preserves the invariant, adding one
version per save. -/
theorem save_run (orig : List Doc) (M : MId) (ps : List (Nat × Nat)) :
    ∀ (k : Nat) (m : Model) (w : World), SaveInv orig M k m w →
      ∃ m2 w2, saveSeq m w ps = some (m2, w2) ∧
        SaveInv orig M (k + ps.length) m2 w2 := by
  induction ps with
  | nil =>
    intro k m w hinv
    exact ⟨m, w, rfl, by simpa using hinv⟩
  | cons p rest ih =>
    obtain ⟨sp, now⟩ := p
    intro k m w hinv
    obtain ⟨m1, w1, hsave, hinv1⟩ := save_step orig M k m w sp now hinv
    obtain ⟨m2, w2, hrun, hinv2⟩ := ih (k + 1) m1 w1 hinv1
    refine ⟨m2, w2, ?_, ?_⟩
    · show saveSeq m w ((sp, now) :: rest) = _
      rw [saveSeq, hsave]
      exact hrun
    · have harith : k + ((sp, now) :: rest).length = (k + 1) + rest.length := by
        simp
        omega
      rw [harith]
      exact hinv2

/-- A list whose predicate holds exactly at index `j` filters to the
singleton at `j`. -/
theorem filter_single {α : Type} (p : α → Bool) :
    ∀ (l : List α) (j : Nat) (hj : j < l.length),
      (∀ i (h : i < l.length), p l[i] = decide (i = j)) →
      l.filter p = [l[j]] := by
  intro l
  induction l with
  | nil => intro j hj _; simp at hj
  | cons a tl ih =>
    intro j hj hp
    cases j with
    | zero =>
      have hpa : p a = true := by
        have := hp 0 (by simp)
        simpa using this
      rw [List.filter_cons_of_pos hpa]
      have htl : tl.filter p = [] := by
        rw [List.filter_eq_nil_iff]
        intro x hx
        obtain ⟨i, hi, hget⟩ := List.mem_iff_getElem.1 hx
        have := hp (i + 1) (by simpa using hi)
        rw [List.getElem_cons_succ] at this
        rw [← hget, this]
        simp
      rw [htl]
      simp
    | succ j' =>
      have hpa : ¬ p a = true := by
        have := hp 0 (by simp)
        simp at this
        simp [this]
      rw [List.filter_cons_of_neg hpa]
      have hj' : j' < tl.length := by simpa using hj
      have := ih j' hj' ?_
      · rw [this]
        simp
      · intro i h
        have := hp (i + 1) (by simpa using h)
        rw [List.getElem_cons_succ] at this
        simpa using this

/-- From the invariant: among the stored rows of model_id `M`,
exactly one has `is_latest = true`, and its version is `N`. -/
theorem inv_filter_latest (orig : List Doc) (M : MId) (N : Nat) (m : Model)
    (w : World) (hN : 1 ≤ N) (hinv : SaveInv orig M N m w) :
    (w.collection.filter fun d =>
      decide (d.model_id = some M) && d.is_latest).map Doc.version = [N] := by
  obtain ⟨_, _, _, _, _, horig, rows, hcoll, hlen, hrows⟩ := hinv
  rw [hcoll, List.filter_append]
  have ho : (orig.filter fun d =>
      decide (d.model_id = some M) && d.is_latest) = [] := by
    rw [List.filter_eq_nil_iff]
    intro d hd
    simp [horig d hd]
  have hjlt : N - 1 < rows.length := by omega
  have hr : (rows.filter fun d =>
      decide (d.model_id = some M) && d.is_latest) = [rows[N - 1]] := by
    apply filter_single _ rows (N - 1) hjlt
    intro i h
    obtain ⟨h1, h2, h3⟩ := hrows i h
    rw [h1, h3]
    simp only [decide_eq_true_eq, Bool.true_and, decide_True]
    rw [decide_eq_decide]
    omega
  rw [ho, hr]
  have := (hrows (N - 1) hjlt).2.1
  simp only [List.nil_append, List.map_cons, List.map_nil, this]
  congr 1
  omega

/-- C1: starting from a fresh instance in any well-formed store, a
nonempty sequence of `save()` calls all succeed; afterwards the
in-memory version equals the number of saves, the model_id is the
uuid drawn by the first save, and among all stored rows carrying that
model_id exactly one has `is_latest = true`, namely the row whose
version is the number of saves. -/
theorem sequential_saves_single_latest (w0 : World) (ps : List (Nat × Nat))
    (hwf : WF w0) (hne : ps ≠ []) :
    ∃ m w, saveSeq Model.init w0 ps = some (m, w) ∧
      m.version = ps.length ∧
      m.model_id = some w0.nextUuid ∧
      (w.collection.filter fun d =>
        decide (d.model_id = some w0.nextUuid) && d.is_latest).map
          Doc.version = [ps.length] := by
  obtain ⟨p, rest, rfl⟩ := List.exists_cons_of_ne_nil hne
  obtain ⟨sp, now⟩ := p
  obtain ⟨m1, w1, hs1, hinv1⟩ := save_first w0 sp now hwf
  obtain ⟨m2, w2, hrun, hinv2⟩ :=
    save_run w0.collection w0.nextUuid rest 1 m1 w1 hinv1
  have hlen : 1 + rest.length = ((sp, now) :: rest).length := by simp; omega
  rw [hlen] at hinv2
  refine ⟨m2, w2, ?_, hinv2.1, hinv2.2.1, ?_⟩
  · show saveSeq Model.init w0 ((sp, now) :: rest) = _
    rw [saveSeq, hs1]
    exact hrun
  · exact inv_filter_latest _ _ _ _ _ (by simp) hinv2

/-- Witness for C1: two saves from an empty store. -/
theorem sequential_saves_single_latest_wit :
    ∃ m w,
      saveSeq Model.init (World.mk [] 0 0) [(5, 7), (6, 8)] = some (m, w) ∧
      m.version = [(5, 7), (6, 8)].length ∧
      m.model_id = some (World.mk [] 0 0).nextUuid ∧
      (w.collection.filter fun d =>
        decide (d.model_id = some (World.mk [] 0 0).nextUuid) &&
          d.is_latest).map Doc.version = [[(5, 7), (6, 8)].length] :=
  sequential_saves_single_latest (World.mk [] 0 0) [(5, 7), (6, 8)]
    (by simp [WF]) (by simp)

/-- `cls()` followed by `update_from_db_document(document)`, the
rehydration used by all finder classmethods. -/
def modelOfDoc (d : Doc) : Model := Model.init.update_from_db_document d

/-- The single batched query of `Model.find_by_model_id`:
`{"model_id": {"$in": item_id}, "is_latest": True}` evaluated against
the collection (in store order). -/
def latestMatching (coll : List Doc) (ids : List MId) : List Doc :=
  coll.filter fun d =>
    (ids.any fun i => decide (d.model_id = some i)) && d.is_latest

/-- `Model.find_by_model_id`: none on no ids; one query; none when
nothing matches; a single model for a single requested id, else the
list of models in store order. -/
def Model.find_by_model_id (coll : List Doc) (ids : List MId) :
    Option (Model ⊕ List Model) :=
  if ids.isEmpty then none
  else
    match latestMatching coll ids with
    | [] => none
    | d :: rest =>
      if ids.length = 1 then some (.inl (modelOfDoc d))
      else some (.inr ((d :: rest).map modelOfDoc))

/-- C8: behaviour of `find_by_model_id` — none for zero ids, the one
batched query restricts to `is_latest` documents whose model_id is
among the requested ids, none when nothing matches, a single entity
for exactly one requested id, else the list in store order. -/
theorem find_by_model_id_spec (coll : List Doc) (ids : List MId) :
    Model.find_by_model_id coll [] = none ∧
    (∀ d ∈ latestMatching coll ids,
      d.is_latest = true ∧ ∃ i ∈ ids, d.model_id = some i) ∧
    (latestMatching coll ids = [] →
      Model.find_by_model_id coll ids = none) ∧
    (∀ x, ids = [x] → ∀ d rest, latestMatching coll ids = d :: rest →
      Model.find_by_model_id coll ids = some (.inl (modelOfDoc d))) ∧
    (2 ≤ ids.length → ∀ d rest, latestMatching coll ids = d :: rest →
      Model.find_by_model_id coll ids =
        some (.inr ((d :: rest).map modelOfDoc))) := by
  refine ⟨rfl, ?_, ?_, ?_, ?_⟩
  · intro d hd
    obtain ⟨hmem, hp⟩ := List.mem_filter.1 hd
    rw [Bool.and_eq_true] at hp
    refine ⟨hp.2, ?_⟩
    obtain ⟨i, hi, hdec⟩ := List.any_eq_true.1 hp.1
    exact ⟨i, hi, of_decide_eq_true hdec⟩
  · intro h
    by_cases hids : ids.isEmpty
    · simp [Model.find_by_model_id, hids]
    · simp [Model.find_by_model_id, hids, h]
  · intro x hx d rest hlm
    subst hx
    simp [Model.find_by_model_id, hlm]
  · intro h2 d rest hlm
    have hne : ids.isEmpty = false := by
      cases ids <;> simp_all
    have h1 : ids.length ≠ 1 := by omega
    simp [Model.find_by_model_id, hne, hlm, h1]

/-- Witness for C8: a single requested id returning one entity, and
the zero-id call returning none. -/
theorem find_by_model_id_spec_wit :
    Model.find_by_model_id [Doc.mk 0 (some 7) 1 0 0 none true 0] [7] =
      some (.inl (modelOfDoc (Doc.mk 0 (some 7) 1 0 0 none true 0))) ∧
    Model.find_by_model_id [Doc.mk 0 (some 7) 1 0 0 none true 0] [] = none :=
  ⟨(find_by_model_id_spec [Doc.mk 0 (some 7) 1 0 0 none true 0] [7]).2.2.2.1
      7 rfl (Doc.mk 0 (some 7) 1 0 0 none true 0) [] (by rfl),
   (find_by_model_id_spec [Doc.mk 0 (some 7) 1 0 0 none true 0] [7]).1⟩

/-- A hexadecimal digit, as accepted by `bson.objectid.ObjectId`. -/
def isHexDigitChar (c : Char) : Bool :=
  ('0' ≤ c && c ≤ '9') || ('a' ≤ c && c ≤ 'f') || ('A' ≤ c && c ≤ 'F')

def hexDigitVal (c : Char) : Nat :=
  if '0' ≤ c && c ≤ '9' then c.toNat - '0'.toNat
  else if 'a' ≤ c && c ≤ 'f' then c.toNat - 'a'.toNat + 10
  else if 'A' ≤ c && c ≤ 'F' then c.toNat - 'A'.toNat + 10
  else 0

/-- `bson.objectid.ObjectId(item_id)` on a string: a 24-character hex
string parses to the ObjectId value, anything else raises
`bson.errors.InvalidId`. -/
def ObjectId.ofString (s : String) : Except PyExc OId :=
  if s.length = 24 ∧ ∀ c ∈ s.toList, isHexDigitChar c = true then
    .ok (s.toList.foldl (fun a c => a * 16 + hexDigitVal c) 0)
  else .error .invalidId

/-- `Model.find_by_id`: falsy (empty) id returns None; otherwise the
id is parsed by `ObjectId` (which raises on a malformed id) and the
document is looked up by `_id`. -/
def Model.find_by_id (coll : List Doc) (item_id : String) :
    Except PyExc (Option Model) :=
  if item_id = "" then .ok none
  else
    match ObjectId.ofString item_id with
    | .error e => .error e
    | .ok oid =>
      match coll.find? fun d => decide (d._id = oid) with
      | none => .ok none
      | some d => .ok (some (modelOfDoc d))

/-- Counterexample to C4: a malformed non-empty id makes `find_by_id`
raise `bson.errors.InvalidId` (the `ObjectId` constructor raises
before any store access); it does not return None. -/
theorem find_by_id_malformed_raises :
    Model.find_by_id [] "zz" = .error .invalidId ∧
    Model.find_by_id [] "zz" ≠ .ok none := by
  have h0 : Model.find_by_id [] "zz" = .error .invalidId := rfl
  refine ⟨h0, ?_⟩
  intro h
  rw [h0] at h
  exact Except.noConfusion h

/-- C4 (amended): `find_by_id` returns None for an empty id and for a
well-formed id that matches no document, and raises `InvalidId` for a
malformed non-empty id. -/
theorem find_by_id_spec (coll : List Doc) (s : String) :
    (s = "" → Model.find_by_id coll s = .ok none) ∧
    (¬ (s.length = 24 ∧ ∀ c ∈ s.toList, isHexDigitChar c = true) → s ≠ "" →
      Model.find_by_id coll s = .error .invalidId) ∧
    (∀ oid, ObjectId.ofString s = .ok oid →
      (coll.find? fun d => decide (d._id = oid)) = none →
      Model.find_by_id coll s = .ok none) ∧
    (∀ oid d, ObjectId.ofString s = .ok oid →
      (coll.find? fun e => decide (e._id = oid)) = some d →
      Model.find_by_id coll s = .ok (some (modelOfDoc d))) := by
  refine ⟨?_, ?_, ?_, ?_⟩
  · intro h
    subst h
    rfl
  · intro hbad hne
    have hb : ObjectId.ofString s = .error .invalidId := by
      rw [ObjectId.ofString, if_neg hbad]
    simp [Model.find_by_id, hne, hb]
  · intro oid hok hfind
    have hne : s ≠ "" := by
      intro h
      subst h
      simp [ObjectId.ofString] at hok
    simp [Model.find_by_id, hne, hok, hfind]
  · intro oid d hok hfind
    have hne : s ≠ "" := by
      intro h
      subst h
      simp [ObjectId.ofString] at hok
    simp [Model.find_by_id, hne, hok, hfind]

/-- Witness for the amended C4: empty id and absent id return None. -/
theorem find_by_id_spec_wit :
    Model.find_by_id [] "" = .ok none ∧
    Model.find_by_id [] "abcdefabcdefabcdefabcdef" = .ok none :=
  ⟨(find_by_id_spec [] "").1 rfl,
   (find_by_id_spec [] "abcdefabcdefabcdefabcdef").2.2.1
      (("abcdefabcdefabcdefabcdef".toList).foldl
        (fun a c => a * 16 + hexDigitVal c) 0) (by rfl) (by rfl)⟩

/-- The heterogeneous values appearing in a MongoDB query document
for the common model fields. -/
inductive QVal where
  | qnat : Nat → QVal
  | qbool : Bool → QVal
  | qopt : Option Nat → QVal
deriving DecidableEq, Repr

/-- Field access of a stored document by query key; `none` for a key
the document does not carry (such a query clause never matches). -/
def getField (d : Doc) : String → Option QVal
  | "_id" => some (.qnat d._id)
  | "model_id" => some (.qopt d.model_id)
  | "version" => some (.qnat d.version)
  | "time_created" => some (.qnat d.time_created)
  | "time_deleted" => some (.qnat d.time_deleted)
  | "initiator_id" => some (.qopt d.initiator_id)
  | "is_latest" => some (.qbool d.is_latest)
  | "data" => some (.qnat d.data)
  | _ => none

abbrev Query := List (String × QVal)

/-- Python dict assignment `dic[k] = v` on an association list: the
first entry with an equal key keeps its position and takes the new
value, otherwise the pair is appended. -/
def listAssign {α β : Type} [DecidableEq α] (k : α) (v : β) :
    List (α × β) → List (α × β)
  | [] => [(k, v)]
  | (k2, v2) :: rest =>
    if k2 = k then (k2, v) :: rest else (k2, v2) :: listAssign k v rest

/-- Python `dic.update(upd)`: assign every pair of `upd` into `dic`
in order — colliding keys take the value from `upd`. -/
def pyUpdate {α β : Type} [DecidableEq α] (dic upd : List (α × β)) :
    List (α × β) :=
  upd.foldl (fun acc kv => listAssign kv.1 kv.2 acc) dic

/-- The query built by `Model.list_models`:
`{"time_deleted": 0, "is_latest": True}` then
`query.update(pagination["filter"])`. -/
def Model.list_models_query (filter : Query) : Query :=
  pyUpdate [("time_deleted", .qnat 0), ("is_latest", .qbool true)] filter

/-- A document matches a query when every clause equals the
document's field value. -/
def matchesQuery (q : Query) (d : Doc) : Bool :=
  q.all fun kv => decide (getField d kv.1 = some kv.2)

/-- Counterexample to C3: a caller filter containing the key
`time_deleted` overrides the baseline — `dict.update` gives the
caller's pair precedence — so a document with `time_deleted = 5`
matches the query issued by `list_models`. -/
theorem list_models_filter_overrides_baseline :
    Model.list_models_query [("time_deleted", QVal.qnat 5)] =
      [("time_deleted", QVal.qnat 5), ("is_latest", QVal.qbool true)] ∧
    matchesQuery (Model.list_models_query [("time_deleted", QVal.qnat 5)])
      (Doc.mk 0 (some 0) 1 0 5 none true 0) = true ∧
    (Doc.mk 0 (some 0) 1 0 5 none true 0).time_deleted ≠ 0 := by
  refine ⟨rfl, rfl, by decide⟩

/-- C3 (amended): the query issued by `list_models` is the baseline
`time_deleted = 0 AND is_latest = true` merged with the caller filter
where colliding caller keys take precedence; whenever the caller
filter contains neither of the baseline keys, every matching document
has `time_deleted = 0` and `is_latest = true`. -/
theorem list_models_baseline_no_collision (filter : Query) (d : Doc)
    (hf : ∀ kv ∈ filter, kv.1 ≠ "time_deleted" ∧ kv.1 ≠ "is_latest")
    (hm : matchesQuery (Model.list_models_query filter) d = true) :
    d.time_deleted = 0 ∧ d.is_latest = true := by
  have mem_listAssign :
      ∀ (q : Query) (k0 : String) (v0 : QVal) (k : String) (v : QVal),
        (k0, v0) ∈ q → k ≠ k0 → (k0, v0) ∈ listAssign k v q := by
    intro q
    induction q with
    | nil => intro k0 v0 k v h _; cases h
    | cons kv2 rest ih =>
      intro k0 v0 k v h hk
      obtain ⟨k2, v2⟩ := kv2
      rw [listAssign]
      split
      · rcases List.mem_cons.1 h with heq | hmem
        · injection heq with h1 h2
          subst h1
          exact absurd (by assumption) (Ne.symm hk)
        · exact List.mem_cons_of_mem _ hmem
      · rcases List.mem_cons.1 h with heq | hmem
        · exact heq ▸ List.mem_cons_self _ _
        · exact List.mem_cons_of_mem _ (ih k0 v0 k v hmem hk)
  have mem_pyUpdate :
      ∀ (upd q : Query) (k0 : String) (v0 : QVal),
        (k0, v0) ∈ q → (∀ kv ∈ upd, kv.1 ≠ k0) → (k0, v0) ∈ pyUpdate q upd := by
    intro upd
    induction upd with
    | nil => intro q k0 v0 h _; exact h
    | cons kv rest ih =>
      intro q k0 v0 h hall
      rw [pyUpdate, List.foldl_cons]
      exact ih _ k0 v0
        (mem_listAssign q k0 v0 kv.1 kv.2 h
          (hall kv (List.mem_cons_self _ _)))
        fun kv2 h2 => hall kv2 (List.mem_cons_of_mem _ h2)
  have hmem1 : (("time_deleted" : String), QVal.qnat 0) ∈
      Model.list_models_query filter :=
    mem_pyUpdate filter
      [("time_deleted", QVal.qnat 0), ("is_latest", QVal.qbool true)]
      "time_deleted" (QVal.qnat 0) (List.mem_cons_self _ _)
      fun kv hkv => (hf kv hkv).1
  have hmem2 : (("is_latest" : String), QVal.qbool true) ∈
      Model.list_models_query filter :=
    mem_pyUpdate filter
      [("time_deleted", QVal.qnat 0), ("is_latest", QVal.qbool true)]
      "is_latest" (QVal.qbool true)
      (List.mem_cons_of_mem _ (List.mem_cons_self _ _))
      fun kv hkv => (hf kv hkv).2
  rw [matchesQuery, List.all_eq_true] at hm
  have h1 := of_decide_eq_true (hm _ hmem1)
  have h2 := of_decide_eq_true (hm _ hmem2)
  have h1s : some (QVal.qnat d.time_deleted) = some (QVal.qnat 0) := h1
  have h2s : some (QVal.qbool d.is_latest) = some (QVal.qbool true) := h2
  constructor
  · injection h1s with h
    injection h with h
  · injection h2s with h
    injection h with h

/-- Witness for the amended C3 at a collision-free filter. -/
theorem list_models_baseline_no_collision_wit :
    (Doc.mk 0 (some 0) 1 0 0 none true 0).time_deleted = 0 ∧
    (Doc.mk 0 (some 0) 1 0 0 none true 0).is_latest = true :=
  list_models_baseline_no_collision [("version", QVal.qnat 1)]
    (Doc.mk 0 (some 0) 1 0 0 none true 0) (by decide) (by rfl)

/-- The heterogeneous values in the API JSON boilerplate. -/
inductive ApiVal where
  | vstr : String → ApiVal
  | vnat : Nat → ApiVal
  | vopt : Option Nat → ApiVal
  | vdata : Nat → ApiVal
deriving DecidableEq, Repr

/-- `MODEL_API_STRUCTURE`: the JSON boilerplate of the API response
(the `data` placeholder `{}` and the opaque API payload are both
`vdata`). -/
def MODEL_API_STRUCTURE : List (String × ApiVal) :=
  [("data", .vdata 0), ("model", .vstr ""), ("id", .vstr ""),
   ("version", .vstr ""), ("time_updated", .vnat 0),
   ("time_deleted", .vnat 0), ("initiator_id", .vopt none)]

/-- Python `str(self.model_id)`: the uuid string, or the string
`None` before any save. -/
def pyStr : Option MId → String
  | none => "None"
  | some u => toString u

/-- `Model.make_api_structure`: deep-copy `MODEL_API_STRUCTURE` and
assign the seven fields from the instance, in source order;
`MODEL_NAME` and the entity-specific API payload are parameters. -/
def Model.make_api_structure (m : Model) (modelName : String)
    (apiData : Nat) : List (String × ApiVal) :=
  let s := MODEL_API_STRUCTURE
  let s := listAssign "version" (.vnat m.version) s
  let s := listAssign "id" (.vstr (pyStr m.model_id)) s
  let s := listAssign "model" (.vstr modelName) s
  let s := listAssign "time_updated" (.vnat m.time_created) s
  let s := listAssign "time_deleted" (.vnat m.time_deleted) s
  let s := listAssign "initiator_id" (.vopt m.initiator_id) s
  listAssign "data" (.vdata apiData) s

/-- C10: for every instance and every concrete entity type
(model name and API payload arbitrary), the API structure has exactly
the seven boilerplate keys, its `id` field is the string form of the
logical model_id (not the per-version `_id`), and its `time_updated`
field is the instance's `time_created`. -/
theorem make_api_structure_spec (m : Model) (modelName : String)
    (apiData : Nat) :
    (m.make_api_structure modelName apiData).map Prod.fst =
      ["data", "model", "id", "version", "time_updated", "time_deleted",
       "initiator_id"] ∧
    (m.make_api_structure modelName apiData).lookup "id" =
      some (.vstr (pyStr m.model_id)) ∧
    (m.make_api_structure modelName apiData).lookup "time_updated" =
      some (.vnat m.time_created) := by
  refine ⟨rfl, rfl, rfl⟩

/-- A Python dict key: a string (a list of characters) or an opaque
non-string hashable. -/
inductive PyKey where
  | pstr : List Char → PyKey
  | pother : Nat → PyKey
deriving DecidableEq, Repr

/-- The sequence containers `dict_escape` rebuilds with
`data.__class__`. -/
inductive CollKind where
  | clist
  | ctuple
  | cset
deriving DecidableEq, Repr

/-- A leaf value: a string or an opaque non-container. -/
inductive PyAtom where
  | astr : List Char → PyAtom
  | aother : Nat → PyAtom
deriving DecidableEq, Repr

/-- Nested Python data as walked by `dict_escape`: atoms, dicts
(over a chain of key/value entries) and list/tuple/set containers
(over a chain of elements).  The chains are part of the same tree
type; the well-formedness predicate `wf` pins each chain sort to its
position. -/
inductive PTree where
  | patom : PyAtom → PTree
  | pdict : PTree → PTree
  | pcoll : CollKind → PTree → PTree
  | dnil : PTree
  | dcons : PTree → PTree → PTree
  | enil : PTree
  | econs : PyKey → PTree → PTree → PTree
deriving DecidableEq, Repr

/-- Position sorts for `wf`: a data value, an element chain, an entry
chain. -/
inductive PSort where
  | sdata
  | sdlist
  | selist
deriving DecidableEq, Repr

/-- Well-formedness: dict children are entry chains, container
children are element chains, and chains hold well-formed data. -/
def wf : PSort → PTree → Bool
  | .sdata, .patom _ => true
  | .sdata, .pdict es => wf .selist es
  | .sdata, .pcoll _ xs => wf .sdlist xs
  | .sdlist, .dnil => true
  | .sdlist, .dcons x xs => wf .sdata x && wf .sdlist xs
  | .selist, .enil => true
  | .selist, .econs _ v rest => wf .sdata v && wf .selist rest
  | _, _ => false

/-- Python `key.replace(from_, to_)` for one-character arguments (the
only instantiations used: `dot_escape` and `dot_unescape`). -/
def replaceAll (f t : Char) (s : List Char) : List Char :=
  s.map fun c => if c = f then t else c

/-- The key rewriting step of `dict_escape`:
`if isinstance(key, str) and from_ in key: key = key.replace(from_, to_)`. -/
def escKey (f t : Char) : PyKey → PyKey
  | .pstr s =>
    if s.any fun c => decide (c = f) then .pstr (replaceAll f t s)
    else .pstr s
  | .pother n => .pother n

/-- Python dict assignment `new_dict[key] = value` on an entry chain:
update the first entry with an equal key in place, else append. -/
def entryAssign (k : PyKey) (v : PTree) : PTree → PTree
  | .econs k2 v2 rest =>
    if k2 = k then .econs k2 v rest else .econs k2 v2 (entryAssign k v rest)
  | other => .econs k v other

mutual
/-- `dict_escape(from_, to_, data)`: on a dict, rebuild the entries
left to right escaping string keys and recursing into values; on a
list/tuple/set, rebuild the same container kind over the escaped
elements; anything else is returned unchanged. -/
def dict_escape (f t : Char) : PTree → PTree
  | .patom a => .patom a
  | .pdict es => .pdict (escEntries f t PTree.enil es)
  | .pcoll kind xs => .pcoll kind (dict_escape f t xs)
  | .dnil => .dnil
  | .dcons x xs => .dcons (dict_escape f t x) (dict_escape f t xs)
  | .enil => .enil
  | .econs k v rest => .econs k v rest

/-- The `for key, value in data.items(): new_dict[key] = ...` loop of
`dict_escape`, with `acc` the dict built so far. -/
def escEntries (f t : Char) (acc : PTree) : PTree → PTree
  | .econs k v rest =>
    escEntries f t (entryAssign (escKey f t k) (dict_escape f t v) acc) rest
  | _ => acc
end

/-- `DOT_ESCAPE = "❤"` — heart is the new dot. -/
def DOT_ESCAPE : Char := '❤'

/-- `dot_escape = functools.partial(dict_escape, ".", DOT_ESCAPE)`. -/
def dot_escape : PTree → PTree := dict_escape '.' DOT_ESCAPE

/-- `dot_unescape = functools.partial(dict_escape, DOT_ESCAPE, ".")`. -/
def dot_unescape : PTree → PTree := dict_escape DOT_ESCAPE '.'

/-- Pointwise mapping of the escape over an entry chain (no collision
collapsing); coincides with `escEntries` when the escaped keys stay
pairwise distinct. -/
def entryMapEsc (f t : Char) : PTree → PTree
  | .econs k v rest =>
    .econs (escKey f t k) (dict_escape f t v) (entryMapEsc f t rest)
  | other => other

/-- Append one entry at the end of an entry chain. -/
def entrySnoc : PTree → PyKey → PTree → PTree
  | .econs k2 v2 rest, k, v => .econs k2 v2 (entrySnoc rest k v)
  | other, k, v => .econs k v other

/-- The keys of an entry chain, in order. -/
def keysOf : PTree → List PyKey
  | .econs k _ rest => k :: keysOf rest
  | _ => []

/-- A key free of the character `f`. -/
def keyFree (f : Char) : PyKey → Bool
  | .pstr s => !(s.any fun c => decide (c = f))
  | .pother _ => true

/-- Every string key at every dict level avoids `f`. -/
def treeFree (f : Char) : PTree → Bool
  | .patom _ => true
  | .pdict es => treeFree f es
  | .pcoll _ xs => treeFree f xs
  | .dnil => true
  | .dcons x xs => treeFree f x && treeFree f xs
  | .enil => true
  | .econs k v rest => keyFree f k && treeFree f v && treeFree f rest

/-- Every dict level has pairwise distinct keys. -/
def treeND : PTree → Bool
  | .patom _ => true
  | .pdict es => treeND es
  | .pcoll _ xs => treeND xs
  | .dnil => true
  | .dcons x xs => treeND x && treeND xs
  | .enil => true
  | .econs k v rest =>
    !(decide (k ∈ keysOf rest)) && treeND v && treeND rest

/-- C7: `dict_escape` (in either direction, i.e. for any from/to
characters) preserves the container type of every container — a
`pcoll kind` maps to a `pcoll` of the same kind (set to set, list to
list, tuple to tuple), a dict to a dict, element chains pointwise —
leaves atoms (leaf values) and non-string keys unchanged, and
rewrites a string key only when it contains the reserved character
(otherwise the key is returned unchanged). -/
theorem dict_escape_shape (f t : Char) (a : PyAtom) (kind : CollKind)
    (x xs es : PTree) (n : Nat) (s : List Char) :
    dict_escape f t (.patom a) = .patom a ∧
    dict_escape f t (.pcoll kind xs) = .pcoll kind (dict_escape f t xs) ∧
    dict_escape f t (.dcons x xs) =
      .dcons (dict_escape f t x) (dict_escape f t xs) ∧
    dict_escape f t (.pdict es) = .pdict (escEntries f t .enil es) ∧
    escKey f t (.pother n) = .pother n ∧
    escKey f t (.pstr s) =
      .pstr (if s.any fun c => decide (c = f) then replaceAll f t s
             else s) := by
  refine ⟨rfl, rfl, rfl, rfl, rfl, ?_⟩
  rw [escKey]
  split <;> rfl

theorem replaceAll_no_from (f t : Char) (h : f ≠ t) (s : List Char) :
    ((replaceAll f t s).any fun c => decide (c = f)) = false := by
  rw [List.any_eq_false]
  intro c hc
  obtain ⟨c0, hc0, heq⟩ := List.mem_map.1 hc
  subst heq
  by_cases h0 : c0 = f <;> simp [h0, Ne.symm h]

theorem keyFree_escKey (f t : Char) (h : f ≠ t) (k : PyKey) :
    keyFree f (escKey f t k) = true := by
  cases k with
  | pother n => rfl
  | pstr s =>
    rw [escKey]
    split
    · rw [keyFree]
      simp [replaceAll_no_from f t h s]
    · rename_i hcond
      rw [Bool.not_eq_true] at hcond
      rw [keyFree, hcond]
      rfl

theorem escKey_roundtrip (f t : Char) (k : PyKey)
    (hfree : keyFree f k = true) :
    escKey f t (escKey t f k) = k := by
  cases k with
  | pother n => rfl
  | pstr s =>
    have hs : (s.any fun c => decide (c = f)) = false := by
      simpa [keyFree] using hfree
    have hsmem := List.any_eq_false.1 hs
    rw [escKey]
    split
    · rename_i hst
      rw [escKey]
      split
      · congr 1
        rw [replaceAll, replaceAll, List.map_map]
        have : ∀ c ∈ s,
            ((fun c => if c = f then t else c) ∘
              fun c => if c = t then f else c) c = id c := by
          intro c hc
          have hcf : ¬ c = f := by simpa using hsmem c hc
          by_cases hct : c = t
          · simp [hct]
          · simp [hct, hcf]
        rw [List.map_congr_left this, List.map_id]
      · rename_i hrt
        exfalso
        apply hrt
        obtain ⟨c, hc, hdec⟩ := List.any_eq_true.1 hst
        have hct : c = t := of_decide_eq_true hdec
        apply List.any_eq_true.2
        refine ⟨f, ?_, by simp⟩
        apply List.mem_map.2
        exact ⟨c, hc, by simp [hct]⟩
    · rename_i hst
      rw [escKey, if_neg (by simp [hs])]

/-- Append a whole entry chain to another. -/
def entryConcat : PTree → PTree → PTree
  | .econs k v rest, ys => .econs k v (entryConcat rest ys)
  | _, ys => ys

theorem keysOf_entrySnoc (acc : PTree) (k : PyKey) (v : PTree) :
    keysOf (entrySnoc acc k v) = keysOf acc ++ [k] := by
  induction acc with
  | econs k2 v2 rest ihv ihr =>
    rw [entrySnoc, keysOf, keysOf, ihr]
    rfl
  | _ => rfl

theorem entryAssign_notmem (acc : PTree) (k : PyKey) (v : PTree)
    (h : k ∉ keysOf acc) : entryAssign k v acc = entrySnoc acc k v := by
  induction acc with
  | econs k2 v2 rest ihv ihr =>
    rw [keysOf] at h
    rw [entryAssign, entrySnoc, if_neg, ihr fun hc => h (List.mem_cons_of_mem _ hc)]
    intro hc
    exact h (hc ▸ List.mem_cons_self _ _)
  | _ => rfl

theorem treeFree_entryAssign (f : Char) (acc : PTree) (k : PyKey) (v : PTree)
    (ha : treeFree f acc = true) (hk : keyFree f k = true)
    (hv : treeFree f v = true) : treeFree f (entryAssign k v acc) = true := by
  induction acc with
  | econs k2 v2 rest ihv ihr =>
    rw [treeFree, Bool.and_eq_true, Bool.and_eq_true] at ha
    rw [entryAssign]
    split
    · rw [treeFree, Bool.and_eq_true, Bool.and_eq_true]
      exact ⟨⟨ha.1.1, hv⟩, ha.2⟩
    · rw [treeFree, Bool.and_eq_true, Bool.and_eq_true]
      exact ⟨ha.1, ihr ha.2⟩
  | patom a =>
    show treeFree f (.econs k v (.patom a)) = true
    rw [treeFree, Bool.and_eq_true, Bool.and_eq_true]
    exact ⟨⟨hk, hv⟩, ha⟩
  | pdict es ih =>
    show treeFree f (.econs k v (.pdict es)) = true
    rw [treeFree, Bool.and_eq_true, Bool.and_eq_true]
    exact ⟨⟨hk, hv⟩, ha⟩
  | pcoll kind xs ih =>
    show treeFree f (.econs k v (.pcoll kind xs)) = true
    rw [treeFree, Bool.and_eq_true, Bool.and_eq_true]
    exact ⟨⟨hk, hv⟩, ha⟩
  | dnil =>
    show treeFree f (.econs k v .dnil) = true
    rw [treeFree, Bool.and_eq_true, Bool.and_eq_true]
    exact ⟨⟨hk, hv⟩, ha⟩
  | dcons x xs ihx ihxs =>
    show treeFree f (.econs k v (.dcons x xs)) = true
    rw [treeFree, Bool.and_eq_true, Bool.and_eq_true]
    exact ⟨⟨hk, hv⟩, ha⟩
  | enil =>
    show treeFree f (.econs k v .enil) = true
    rw [treeFree, Bool.and_eq_true, Bool.and_eq_true]
    exact ⟨⟨hk, hv⟩, ha⟩

theorem keysOf_entryAssign (acc : PTree) (k : PyKey) (v : PTree) :
    keysOf (entryAssign k v acc) =
      if k ∈ keysOf acc then keysOf acc else keysOf acc ++ [k] := by
  induction acc with
  | econs k2 v2 rest ihv ihr =>
    rw [entryAssign]
    split
    · rename_i hk2
      subst hk2
      rw [keysOf, keysOf, if_pos (List.mem_cons_self _ _)]
    · rename_i hk2
      rw [keysOf, ihr, keysOf]
      by_cases hm : k ∈ keysOf rest
      · rw [if_pos hm, if_pos (List.mem_cons_of_mem _ hm)]
      · rw [if_neg hm, if_neg]
        · rfl
        · intro hc
          rcases List.mem_cons.1 hc with he | hm2
          · exact hk2 he.symm
          · exact hm hm2
  | _ => rfl

theorem treeND_entryAssign (acc : PTree) (k : PyKey) (v : PTree)
    (ha : treeND acc = true) (hv : treeND v = true) :
    treeND (entryAssign k v acc) = true := by
  have notin_pres : ∀ (a : PTree) (k0 : PyKey), k0 ∉ keysOf a → k0 ≠ k →
      k0 ∉ keysOf (entryAssign k v a) := by
    intro a k0 hna hnk
    rw [keysOf_entryAssign]
    split
    · exact hna
    · intro hc
      rcases List.mem_append.1 hc with hm | hm
      · exact hna hm
      · exact hnk (by simpa using hm)
  induction acc with
  | econs k2 v2 rest ihv ihr =>
    rw [treeND, Bool.and_eq_true, Bool.and_eq_true] at ha
    rw [entryAssign]
    split
    · rw [treeND, Bool.and_eq_true, Bool.and_eq_true]
      exact ⟨⟨ha.1.1, hv⟩, ha.2⟩
    · rename_i hk2
      rw [treeND, Bool.and_eq_true, Bool.and_eq_true]
      refine ⟨⟨?_, ha.1.2⟩, ihr ha.2⟩
      have hna : k2 ∉ keysOf rest := by
        have := ha.1.1
        simpa using this
      have := notin_pres rest k2 hna hk2
      simpa using this
  | patom a =>
    show treeND (.econs k v (.patom a)) = true
    rw [treeND, Bool.and_eq_true, Bool.and_eq_true]
    exact ⟨⟨by simp [keysOf], hv⟩, ha⟩
  | pdict es ih =>
    show treeND (.econs k v (.pdict es)) = true
    rw [treeND, Bool.and_eq_true, Bool.and_eq_true]
    exact ⟨⟨by simp [keysOf], hv⟩, ha⟩
  | pcoll kind xs ih =>
    show treeND (.econs k v (.pcoll kind xs)) = true
    rw [treeND, Bool.and_eq_true, Bool.and_eq_true]
    exact ⟨⟨by simp [keysOf], hv⟩, ha⟩
  | dnil =>
    show treeND (.econs k v .dnil) = true
    rw [treeND, Bool.and_eq_true, Bool.and_eq_true]
    exact ⟨⟨by simp [keysOf], hv⟩, ha⟩
  | dcons x xs ihx ihxs =>
    show treeND (.econs k v (.dcons x xs)) = true
    rw [treeND, Bool.and_eq_true, Bool.and_eq_true]
    exact ⟨⟨by simp [keysOf], hv⟩, ha⟩
  | enil =>
    show treeND (.econs k v .enil) = true
    rw [treeND, Bool.and_eq_true, Bool.and_eq_true]
    exact ⟨⟨by simp [keysOf], hv⟩, ha⟩

theorem wf_entryAssign (acc : PTree) (k : PyKey) (v : PTree)
    (ha : wf .selist acc = true) (hv : wf .sdata v = true) :
    wf .selist (entryAssign k v acc) = true := by
  induction acc with
  | econs k2 v2 rest ihv ihr =>
    rw [wf, Bool.and_eq_true] at ha
    rw [entryAssign]
    split
    · rw [wf, Bool.and_eq_true]
      exact ⟨hv, ha.2⟩
    · rw [wf, Bool.and_eq_true]
      exact ⟨ha.1, ihr ha.2⟩
  | enil =>
    show wf .selist (.econs k v .enil) = true
    rw [wf, Bool.and_eq_true]
    exact ⟨hv, ha⟩
  | patom a => exact absurd ha (by simp [wf])
  | pdict es ih => exact absurd ha (by simp [wf])
  | pcoll kind xs ih => exact absurd ha (by simp [wf])
  | dnil => exact absurd ha (by simp [wf])
  | dcons x xs ihx ihxs => exact absurd ha (by simp [wf])

theorem wf_entrySnoc (acc : PTree) (k : PyKey) (v : PTree)
    (ha : wf .selist acc = true) (hv : wf .sdata v = true) :
    wf .selist (entrySnoc acc k v) = true := by
  induction acc with
  | econs k2 v2 rest ihv ihr =>
    rw [wf, Bool.and_eq_true] at ha
    rw [entrySnoc, wf, Bool.and_eq_true]
    exact ⟨ha.1, ihr ha.2⟩
  | enil =>
    show wf .selist (.econs k v .enil) = true
    rw [wf, Bool.and_eq_true]
    exact ⟨hv, ha⟩
  | patom a => exact absurd ha (by simp [wf])
  | pdict es ih => exact absurd ha (by simp [wf])
  | pcoll kind xs ih => exact absurd ha (by simp [wf])
  | dnil => exact absurd ha (by simp [wf])
  | dcons x xs ihx ihxs => exact absurd ha (by simp [wf])

theorem entryConcat_enil (acc : PTree) (ha : wf .selist acc = true) :
    entryConcat acc .enil = acc := by
  induction acc with
  | econs k2 v2 rest ihv ihr =>
    rw [wf, Bool.and_eq_true] at ha
    rw [entryConcat, ihr ha.2]
  | enil => rfl
  | patom a => exact absurd ha (by simp [wf])
  | pdict es ih => exact absurd ha (by simp [wf])
  | pcoll kind xs ih => exact absurd ha (by simp [wf])
  | dnil => exact absurd ha (by simp [wf])
  | dcons x xs ihx ihxs => exact absurd ha (by simp [wf])

theorem entryConcat_econs (acc : PTree) (k : PyKey) (v ys : PTree)
    (ha : wf .selist acc = true) :
    entryConcat acc (.econs k v ys) = entryConcat (entrySnoc acc k v) ys := by
  induction acc with
  | econs k2 v2 rest ihv ihr =>
    rw [wf, Bool.and_eq_true] at ha
    rw [entryConcat, entrySnoc, entryConcat, ihr ha.2]
  | enil => rfl
  | patom a => exact absurd ha (by simp [wf])
  | pdict es ih => exact absurd ha (by simp [wf])
  | pcoll kind xs ih => exact absurd ha (by simp [wf])
  | dnil => exact absurd ha (by simp [wf])
  | dcons x xs ihx ihxs => exact absurd ha (by simp [wf])

/-- The escape's output invariants: well-formedness is preserved, all
string keys of the output avoid `from_`, and every output dict has
pairwise distinct keys (the assignment loop collapses collisions). -/
theorem dict_escape_inv (f t : Char) (hft : f ≠ t) : ∀ X : PTree,
    (wf .sdata X = true →
      wf .sdata (dict_escape f t X) = true ∧
      treeFree f (dict_escape f t X) = true ∧
      treeND (dict_escape f t X) = true) ∧
    (wf .sdlist X = true →
      wf .sdlist (dict_escape f t X) = true ∧
      treeFree f (dict_escape f t X) = true ∧
      treeND (dict_escape f t X) = true) ∧
    (wf .selist X = true → ∀ acc,
      wf .selist acc = true → treeFree f acc = true → treeND acc = true →
      wf .selist (escEntries f t acc X) = true ∧
      treeFree f (escEntries f t acc X) = true ∧
      treeND (escEntries f t acc X) = true) := by
  intro X
  induction X with
  | patom a =>
    refine ⟨fun _ => ⟨rfl, rfl, rfl⟩, ?_, ?_⟩
    · intro h; exact absurd h (by simp [wf])
    · intro h; exact absurd h (by simp [wf])
  | pdict es ih =>
    refine ⟨?_, ?_, ?_⟩
    · intro h
      exact ih.2.2 h PTree.enil rfl rfl rfl
    · intro h; exact absurd h (by simp [wf])
    · intro h; exact absurd h (by simp [wf])
  | pcoll kind xs ih =>
    refine ⟨?_, ?_, ?_⟩
    · intro h
      exact ih.2.1 h
    · intro h; exact absurd h (by simp [wf])
    · intro h; exact absurd h (by simp [wf])
  | dnil =>
    refine ⟨?_, fun _ => ⟨rfl, rfl, rfl⟩, ?_⟩
    · intro h; exact absurd h (by simp [wf])
    · intro h; exact absurd h (by simp [wf])
  | dcons x xs ihx ihxs =>
    refine ⟨?_, ?_, ?_⟩
    · intro h; exact absurd h (by simp [wf])
    · intro h
      have h2 : wf .sdata x = true ∧ wf .sdlist xs = true := by
        rw [show wf .sdlist (.dcons x xs) = (wf .sdata x && wf .sdlist xs)
          from rfl, Bool.and_eq_true] at h
        exact h
      obtain ⟨ha1, ha2, ha3⟩ := ihx.1 h2.1
      obtain ⟨hb1, hb2, hb3⟩ := ihxs.2.1 h2.2
      refine ⟨?_, ?_, ?_⟩
      · show (wf .sdata (dict_escape f t x) &&
          wf .sdlist (dict_escape f t xs)) = true
        rw [Bool.and_eq_true]
        exact ⟨ha1, hb1⟩
      · show (treeFree f (dict_escape f t x) &&
          treeFree f (dict_escape f t xs)) = true
        rw [Bool.and_eq_true]
        exact ⟨ha2, hb2⟩
      · show (treeND (dict_escape f t x) &&
          treeND (dict_escape f t xs)) = true
        rw [Bool.and_eq_true]
        exact ⟨ha3, hb3⟩
    · intro h; exact absurd h (by simp [wf])
  | enil =>
    refine ⟨?_, ?_, ?_⟩
    · intro h; exact absurd h (by simp [wf])
    · intro h; exact absurd h (by simp [wf])
    · intro h acc hw hf2 hn
      exact ⟨hw, hf2, hn⟩
  | econs k v rest ihv ihr =>
    refine ⟨?_, ?_, ?_⟩
    · intro h; exact absurd h (by simp [wf])
    · intro h; exact absurd h (by simp [wf])
    · intro h acc hw hf2 hn
      have h2 : wf .sdata v = true ∧ wf .selist rest = true := by
        rw [show wf .selist (.econs k v rest) =
          (wf .sdata v && wf .selist rest) from rfl, Bool.and_eq_true] at h
        exact h
      obtain ⟨hv1, hv2, hv3⟩ := ihv.1 h2.1
      exact ihr.2.2 h2.2 _
        (wf_entryAssign acc _ _ hw hv1)
        (treeFree_entryAssign f acc _ _ hf2 (keyFree_escKey f t hft k) hv2)
        (treeND_entryAssign acc _ _ hn hv3)

theorem treeND_keysOf (es : PTree) (h : treeND es = true) :
    (keysOf es).Nodup := by
  induction es with
  | econs k v rest ihv ihr =>
    rw [show treeND (.econs k v rest) =
      (!(decide (k ∈ keysOf rest)) && treeND v && treeND rest) from rfl,
      Bool.and_eq_true, Bool.and_eq_true] at h
    rw [keysOf, List.nodup_cons]
    refine ⟨?_, ihr h.2⟩
    have := h.1.1
    simpa using this
  | patom a => exact List.nodup_nil
  | pdict es ih => exact List.nodup_nil
  | pcoll kind xs ih => exact List.nodup_nil
  | dnil => exact List.nodup_nil
  | dcons x xs ihx ihxs => exact List.nodup_nil
  | enil => exact List.nodup_nil

theorem treeFree_keys (f : Char) (es : PTree) (h : treeFree f es = true) :
    ∀ k ∈ keysOf es, keyFree f k = true := by
  induction es with
  | econs k v rest ihv ihr =>
    rw [show treeFree f (.econs k v rest) =
      (keyFree f k && treeFree f v && treeFree f rest) from rfl,
      Bool.and_eq_true, Bool.and_eq_true] at h
    intro k2 hk2
    rcases List.mem_cons.1 hk2 with he | hm
    · exact he ▸ h.1.1
    · exact ihr h.2 k2 hm
  | patom a => intro k hk; cases hk
  | pdict es ih => intro k hk; cases hk
  | pcoll kind xs ih => intro k hk; cases hk
  | dnil => intro k hk; cases hk
  | dcons x xs ihx ihxs => intro k hk; cases hk
  | enil => intro k hk; cases hk

theorem keysOf_entryMapEsc (f t : Char) (es : PTree) :
    keysOf (entryMapEsc f t es) = (keysOf es).map (escKey f t) := by
  induction es with
  | econs k v rest ihv ihr =>
    rw [entryMapEsc, keysOf, keysOf, List.map_cons, ihr]
  | patom a => rfl
  | pdict es ih => rfl
  | pcoll kind xs ih => rfl
  | dnil => rfl
  | dcons x xs ihx ihxs => rfl
  | enil => rfl

theorem wf_entryMapEsc (f t : Char) (hft : f ≠ t) (es : PTree)
    (h : wf .selist es = true) : wf .selist (entryMapEsc f t es) = true := by
  induction es with
  | econs k v rest ihv ihr =>
    rw [show wf .selist (.econs k v rest) =
      (wf .sdata v && wf .selist rest) from rfl, Bool.and_eq_true] at h
    show (wf .sdata (dict_escape f t v) &&
      wf .selist (entryMapEsc f t rest)) = true
    rw [Bool.and_eq_true]
    exact ⟨((dict_escape_inv f t hft v).1 h.1).1, ihr h.2⟩
  | enil => rfl
  | patom a => exact absurd h (by simp [wf])
  | pdict es ih => exact absurd h (by simp [wf])
  | pcoll kind xs ih => exact absurd h (by simp [wf])
  | dnil => exact absurd h (by simp [wf])
  | dcons x xs ihx ihxs => exact absurd h (by simp [wf])

/-- When the escaped keys are pairwise distinct (and distinct from
the accumulator's keys) the assignment loop never collapses anything
and coincides with the pointwise map appended to the accumulator. -/
theorem escEntries_eq_map (f t : Char) (hft : f ≠ t) : ∀ (es acc : PTree),
    wf .selist es = true → wf .selist acc = true →
    (keysOf acc ++ (keysOf es).map (escKey f t)).Nodup →
    escEntries f t acc es = entryConcat acc (entryMapEsc f t es) := by
  intro es
  induction es with
  | econs k v rest ihv ihr =>
    intro acc hes hacc hnd
    rw [show wf .selist (.econs k v rest) =
      (wf .sdata v && wf .selist rest) from rfl, Bool.and_eq_true] at hes
    rw [keysOf, List.map_cons] at hnd
    have hnotin : escKey f t k ∉ keysOf acc := by
      intro hmem
      have hdisj := (List.nodup_append.1 hnd).2.2
      exact hdisj hmem (List.mem_cons_self _ _)
    have hnd2 : (keysOf (entrySnoc acc (escKey f t k) (dict_escape f t v)) ++
        (keysOf rest).map (escKey f t)).Nodup := by
      rw [keysOf_entrySnoc]
      rw [show keysOf acc ++ escKey f t k :: (keysOf rest).map (escKey f t) =
        (keysOf acc ++ [escKey f t k]) ++ (keysOf rest).map (escKey f t) by
          simp] at hnd
      exact hnd
    show escEntries f t
      (entryAssign (escKey f t k) (dict_escape f t v) acc) rest = _
    rw [entryAssign_notmem acc _ _ hnotin]
    rw [entryMapEsc, entryConcat_econs acc _ _ _ hacc]
    exact ihr _ hes.2
      (wf_entrySnoc acc _ _ hacc ((dict_escape_inv f t hft v).1 hes.1).1) hnd2
  | enil =>
    intro acc hes hacc hnd
    show acc = entryConcat acc (entryMapEsc f t .enil)
    rw [show entryMapEsc f t .enil = .enil from rfl,
      entryConcat_enil acc hacc]
  | patom a => intro acc hes _ _; exact absurd hes (by simp [wf])
  | pdict es ih => intro acc hes _ _; exact absurd hes (by simp [wf])
  | pcoll kind xs ih => intro acc hes _ _; exact absurd hes (by simp [wf])
  | dnil => intro acc hes _ _; exact absurd hes (by simp [wf])
  | dcons x xs ihx ihxs => intro acc hes _ _; exact absurd hes (by simp [wf])

/-- Escaping undoes unescaping on any structure that is already free
of the reserved character and has duplicate-free dict keys — which is
exactly the shape of `dict_escape` output. -/
theorem dict_escape_unescape (f t : Char) (hft : f ≠ t) : ∀ Y : PTree,
    (wf .sdata Y = true → treeFree f Y = true → treeND Y = true →
      dict_escape f t (dict_escape t f Y) = Y) ∧
    (wf .sdlist Y = true → treeFree f Y = true → treeND Y = true →
      dict_escape f t (dict_escape t f Y) = Y) ∧
    (wf .selist Y = true → treeFree f Y = true → treeND Y = true →
      entryMapEsc f t (entryMapEsc t f Y) = Y) := by
  intro Y
  induction Y with
  | patom a =>
    refine ⟨fun _ _ _ => rfl, ?_, ?_⟩
    · intro h; exact absurd h (by simp [wf])
    · intro h; exact absurd h (by simp [wf])
  | pdict es ih =>
    refine ⟨?_, ?_, ?_⟩
    · intro h hf hn
      have hkeysnd : ((keysOf es).map (escKey t f)).Nodup := by
        apply List.Nodup.map_on ?_ (treeND_keysOf es hn)
        intro x hx y hy heq
        have hc := congrArg (escKey f t) heq
        rw [escKey_roundtrip f t x (treeFree_keys f es hf x hx),
          escKey_roundtrip f t y (treeFree_keys f es hf y hy)] at hc
        exact hc
      have hnd1 :
          (keysOf PTree.enil ++ (keysOf es).map (escKey t f)).Nodup := by
        simpa [keysOf] using hkeysnd
      have e1 : dict_escape t f (.pdict es) =
          .pdict (entryMapEsc t f es) := by
        show PTree.pdict (escEntries t f PTree.enil es) = _
        rw [escEntries_eq_map t f (Ne.symm hft) es PTree.enil h rfl hnd1]
        rfl
      show dict_escape f t (dict_escape t f (.pdict es)) = .pdict es
      rw [e1]
      have hwf2 : wf .selist (entryMapEsc t f es) = true :=
        wf_entryMapEsc t f (Ne.symm hft) es h
      have hnd2 : (keysOf PTree.enil ++
          (keysOf (entryMapEsc t f es)).map (escKey f t)).Nodup := by
        rw [keysOf_entryMapEsc, List.map_map]
        have hrw : (keysOf es).map (escKey f t ∘ escKey t f) = keysOf es := by
          have : ∀ k ∈ keysOf es, (escKey f t ∘ escKey t f) k = id k := by
            intro k hk
            exact escKey_roundtrip f t k (treeFree_keys f es hf k hk)
          rw [List.map_congr_left this, List.map_id]
        rw [hrw]
        simpa [keysOf] using treeND_keysOf es hn
      show PTree.pdict
        (escEntries f t PTree.enil (entryMapEsc t f es)) = _
      rw [escEntries_eq_map f t hft _ PTree.enil hwf2 rfl hnd2]
      show PTree.pdict (entryMapEsc f t (entryMapEsc t f es)) = _
      rw [ih.2.2 h hf hn]
    · intro h; exact absurd h (by simp [wf])
    · intro h; exact absurd h (by simp [wf])
  | pcoll kind xs ih =>
    refine ⟨?_, ?_, ?_⟩
    · intro h hf hn
      show PTree.pcoll kind (dict_escape f t (dict_escape t f xs)) =
        .pcoll kind xs
      rw [ih.2.1 h hf hn]
    · intro h; exact absurd h (by simp [wf])
    · intro h; exact absurd h (by simp [wf])
  | dnil =>
    refine ⟨?_, fun _ _ _ => rfl, ?_⟩
    · intro h; exact absurd h (by simp [wf])
    · intro h; exact absurd h (by simp [wf])
  | dcons x xs ihx ihxs =>
    refine ⟨?_, ?_, ?_⟩
    · intro h; exact absurd h (by simp [wf])
    · intro h hf hn
      rw [show wf .sdlist (.dcons x xs) =
        (wf .sdata x && wf .sdlist xs) from rfl, Bool.and_eq_true] at h
      rw [show treeFree f (.dcons x xs) =
        (treeFree f x && treeFree f xs) from rfl, Bool.and_eq_true] at hf
      rw [show treeND (.dcons x xs) =
        (treeND x && treeND xs) from rfl, Bool.and_eq_true] at hn
      show PTree.dcons (dict_escape f t (dict_escape t f x))
        (dict_escape f t (dict_escape t f xs)) = .dcons x xs
      rw [ihx.1 h.1 hf.1 hn.1, ihxs.2.1 h.2 hf.2 hn.2]
    · intro h; exact absurd h (by simp [wf])
  | enil =>
    refine ⟨?_, ?_, fun _ _ _ => rfl⟩
    · intro h; exact absurd h (by simp [wf])
    · intro h; exact absurd h (by simp [wf])
  | econs k v rest ihv ihr =>
    refine ⟨?_, ?_, ?_⟩
    · intro h; exact absurd h (by simp [wf])
    · intro h; exact absurd h (by simp [wf])
    · intro h hf hn
      rw [show wf .selist (.econs k v rest) =
        (wf .sdata v && wf .selist rest) from rfl, Bool.and_eq_true] at h
      rw [show treeFree f (.econs k v rest) =
        (keyFree f k && treeFree f v && treeFree f rest) from rfl,
        Bool.and_eq_true, Bool.and_eq_true] at hf
      rw [show treeND (.econs k v rest) =
        (!(decide (k ∈ keysOf rest)) && treeND v && treeND rest) from rfl,
        Bool.and_eq_true, Bool.and_eq_true] at hn
      show PTree.econs (escKey f t (escKey t f k))
        (dict_escape f t (dict_escape t f v))
        (entryMapEsc f t (entryMapEsc t f rest)) = .econs k v rest
      rw [escKey_roundtrip f t k hf.1.1, ihv.1 h.1 hf.1.2 hn.1.2,
        ihr.2.2 h.2 hf.2 hn.2]

/-- C6: for every well-formed nested structure `X` of mappings and
sequences, one escape round trip is idempotent:
`dot_escape (dot_unescape (dot_escape X)) = dot_escape X`. -/
theorem dot_escape_unescape_roundtrip (X : PTree)
    (hwf : wf .sdata X = true) :
    dot_escape (dot_unescape (dot_escape X)) = dot_escape X := by
  have hft : ('.' : Char) ≠ DOT_ESCAPE := by decide
  obtain ⟨h1, h2, h3⟩ := (dict_escape_inv '.' DOT_ESCAPE hft X).1 hwf
  exact (dict_escape_unescape '.' DOT_ESCAPE hft
    (dict_escape '.' DOT_ESCAPE X)).1 h1 h2 h3

/-- Witness for C6 at a dict with a dotted key, a heart key and a
nested container. -/
theorem dot_escape_unescape_roundtrip_wit :
    dot_escape (dot_unescape (dot_escape
      (.pdict (.econs (.pstr ['a', '.', 'b'])
        (.pcoll .cset (.dcons (.patom (.astr ['x', '.', 'y'])) .dnil))
        (.econs (.pstr ['a', '❤', 'b']) (.patom (.aother 2))
          (.econs (.pother 5) (.patom (.aother 3)) .enil)))))) =
    dot_escape
      (.pdict (.econs (.pstr ['a', '.', 'b'])
        (.pcoll .cset (.dcons (.patom (.astr ['x', '.', 'y'])) .dnil))
        (.econs (.pstr ['a', '❤', 'b']) (.patom (.aother 2))
          (.econs (.pother 5) (.patom (.aother 3)) .enil)))) :=
  dot_escape_unescape_roundtrip _ (by decide)
